import Mathlib

/-!
Verification of the impact-metrics computation engine
(`src/lib/impact-metrics.ts`, with the bot predicate from `src/lib/github.ts`).

The engine is embedded shallowly:

* Timestamps (ISO strings / `Date` values in the source) become integers
  (milliseconds since the epoch); ISO-8601 strings of a common format compare
  the same way as their dates, so both the `Date` comparisons and the string
  comparison on `submittedAt` are modelled by `≤`/`<` on `ℤ`.
* JavaScript `Map`s become association lists that append fresh keys at the
  end and update existing keys in place, which models the insertion-order
  iteration of `Map`.
* Exact real scoring (`Math.log1p`) is modelled over `ℝ` with `Real.log`;
  all rational arithmetic (medians, day/hour conversions, rounding) is over
  `ℚ`/`ℤ` and stays computable.
* `Array.prototype.sort` with a comparator (stable since ES2019) is modelled
  by `List.insertionSort` with the corresponding relation, which is stable
  and produces the same list for a total preorder.

The file has two variants of `computeMetrics`, mirroring the two source
variants: the one tracking first-review response times (namespace-free
`computeMetrics`) and the one blending quality signals (`computeMetricsQ`).
-/

/-- Bounded infix test on character lists (used to model JavaScript
`RegExp.test` for the alternation parts of `BOT_RE` without anchors). -/
def infixOfList (needle : List Char) : List Char → Bool
  | [] => needle.isPrefixOf []
  | c :: rest => needle.isPrefixOf (c :: rest) || infixOfList needle rest

/-- Whether `needle` occurs as a contiguous substring of `hay`. -/
def containsSub (hay needle : String) : Bool :=
  infixOfList needle.toList hay.toList

/-- Embedding of `isBot` from `src/lib/github.ts`:
`BOT_RE = /(dependabot|github-actions|renovate|bot|app$|apps$)/i`.
The case-insensitive flag is modelled by lowering the login first (the
pattern alternatives are themselves lower case). -/
def isBot (login : String) : Bool :=
  let s := login.toLower
  containsSub s ("dependabot") || containsSub s ("github-actions") ||
    containsSub s ("renovate") || containsSub s ("bot") ||
    s.endsWith ("app") || s.endsWith ("apps")

/-- A PR author object (`author { login avatarUrl }`). -/
structure PRAuthor where
  login : String
  avatarUrl : String
deriving DecidableEq

/-- A review node (`reviews.nodes` entries: `author { login }`, `submittedAt`,
`state`). The `state` field is carried but never used by the engine. -/
structure ReviewNode where
  author : Option String
  submittedAt : ℤ
  state : String
deriving DecidableEq

/-- A pull-request node as consumed by `computeMetrics`. -/
structure PRNode where
  title : String
  url : String
  createdAt : ℤ
  mergedAt : ℤ
  mergeCommitOid : Option String
  additions : ℕ
  deletions : ℕ
  author : Option PRAuthor
  reviews : List ReviewNode
deriving DecidableEq

/-- Accumulator per login in `authorMap`: `{ avatarUrl, prs: [], reviewsGiven: 0 }`. -/
structure AccEntry where
  avatarUrl : String
  prs : List PRNode
  reviewsGiven : ℕ
deriving DecidableEq

/-- The `authorMap`, as an insertion-ordered association list. -/
abbrev AMap := List (String × AccEntry)

/-- `reviewerFirstReview`: reviewer → prUrl → (prCreatedAt, minSubmittedAt). -/
abbrev FRMap := List (String × List (String × ℤ × ℤ))

/-- `ensure(prAuthor, avatarUrl)` followed by `entry.prs.push(pr)`: create the
entry at the end if absent (with the supplied avatar); otherwise fill in a
still-empty avatar and append the PR to the entry's list. -/
def pushPR (m : AMap) (login avatar : String) (pr : PRNode) : AMap :=
  match m with
  | [] => [(login, ⟨avatar, [pr], 0⟩)]
  | p :: rest =>
    if p.1 = login then
      (p.1, ⟨if p.2.avatarUrl = "" ∧ avatar ≠ "" then avatar else p.2.avatarUrl,
             p.2.prs ++ [pr], p.2.reviewsGiven⟩) :: rest
    else p :: pushPR rest login avatar pr

/-- `ensure(reviewer)` followed by `reviewerEntry.reviewsGiven += 1`:
create the entry at the end if absent (avatar defaults to `""`), then bump
the review counter. -/
def bumpReview (m : AMap) (login : String) : AMap :=
  match m with
  | [] => [(login, ⟨"", [], 1⟩)]
  | p :: rest =>
    if p.1 = login then
      (p.1, ⟨p.2.avatarUrl, p.2.prs, p.2.reviewsGiven + 1⟩) :: rest
    else p :: bumpReview rest login

/-- `byPr.set(pr.url, {prCreatedAt, minSubmittedAt})` guarded by
`!existing || review.submittedAt < existing.minSubmittedAt`. -/
def frInsertPR (byPr : List (String × ℤ × ℤ)) (url : String) (created sub : ℤ) :
    List (String × ℤ × ℤ) :=
  match byPr with
  | [] => [(url, created, sub)]
  | e :: rest =>
    if e.1 = url then
      (if sub < e.2.2 then (url, created, sub) :: rest else e :: rest)
    else e :: frInsertPR rest url created sub

/-- Update of the outer `reviewerFirstReview` map for one review. -/
def frUpdate (fr : FRMap) (reviewer url : String) (created sub : ℤ) : FRMap :=
  match fr with
  | [] => [(reviewer, frInsertPR [] url created sub)]
  | e :: rest =>
    if e.1 = reviewer then (e.1, frInsertPR e.2 url created sub) :: rest
    else e :: frUpdate rest reviewer url created sub

/-- One iteration of the inner review loop, author-map part only (this is the
whole loop body in the quality-signals variant of the engine). -/
def reviewStep (ws : ℤ) (prAuthor : String) (m : AMap) (rv : ReviewNode) : AMap :=
  match rv.author with
  | none => m
  | some reviewer =>
    if isBot reviewer then m
    else if reviewer = prAuthor then m
    else if rv.submittedAt < ws then m
    else bumpReview m reviewer

/-- One iteration of the inner review loop of the response-time variant:
the author-map update together with the first-review tracking. -/
def reviewStepFR (ws : ℤ) (prAuthor prUrl : String) (prCreatedAt : ℤ)
    (s : AMap × FRMap) (rv : ReviewNode) : AMap × FRMap :=
  match rv.author with
  | none => s
  | some reviewer =>
    if isBot reviewer then s
    else if reviewer = prAuthor then s
    else if rv.submittedAt < ws then s
    else (bumpReview s.1 reviewer, frUpdate s.2 reviewer prUrl prCreatedAt rv.submittedAt)

/-- One iteration of the outer PR loop, author-map part only
(the whole loop body of the quality-signals variant). -/
def authorStep (ws : ℤ) (m : AMap) (pr : PRNode) : AMap :=
  match pr.author with
  | none => m
  | some a =>
    if isBot a.login then m
    else pr.reviews.foldl (reviewStep ws a.login) (pushPR m a.login a.avatarUrl pr)

/-- One iteration of the outer PR loop of the response-time variant. -/
def processPR (ws : ℤ) (s : AMap × FRMap) (pr : PRNode) : AMap × FRMap :=
  match pr.author with
  | none => s
  | some a =>
    if isBot a.login then s
    else pr.reviews.foldl (reviewStepFR ws a.login pr.url pr.createdAt)
      (pushPR s.1 a.login a.avatarUrl pr, s.2)

/-- The grouping pass of the quality-signals variant of `computeMetrics`. -/
def authorFold (ws : ℤ) (prs : List PRNode) : AMap :=
  prs.foldl (authorStep ws) []

/-- The grouping pass of the response-time variant of `computeMetrics`:
`authorMap` and `reviewerFirstReview` built in one sweep. -/
def processAll (ws : ℤ) (prs : List PRNode) : AMap × FRMap :=
  prs.foldl (processPR ws) ([], [])

/-- Embedding of `median` from `src/lib/impact-metrics.ts`: 0 on the empty
list, otherwise middle element (odd length) or mean of the two middle
elements (even length) of the ascending numeric sort. -/
def median (arr : List ℚ) : ℚ :=
  if arr.length = 0 then 0
  else
    let sorted := List.insertionSort (fun a b : ℚ => a ≤ b) arr
    let mid := sorted.length / 2
    if sorted.length % 2 ≠ 0 then sorted.getD mid 0
    else (sorted.getD (mid - 1) 0 + sorted.getD mid 0) / 2

/-- JavaScript `Math.round` on an exact rational: `⌊q + 1/2⌋`
(round half toward positive infinity, as `Math.round` does). -/
def jsRoundQ (q : ℚ) : ℤ := ⌊q + 1 / 2⌋

/-- `Math.round(q * 100) / 100` over `ℚ`. -/
def round2Q (q : ℚ) : ℚ := (jsRoundQ (q * 100) : ℚ) / 100

/-- `Math.round(q * 10) / 10` over `ℚ`. -/
def round1Q (q : ℚ) : ℚ := (jsRoundQ (q * 10) : ℚ) / 10

/-- JavaScript `Math.round` on an exact real. -/
noncomputable def jsRoundR (x : ℝ) : ℤ := ⌊x + 1 / 2⌋

/-- `Math.round(x * 100) / 100` over `ℝ` — the 2-decimal rounding applied to
`total` and the breakdown components. -/
noncomputable def round2R (x : ℝ) : ℝ := (jsRoundR (x * 100) : ℝ) / 100

/-- Rounding half away from zero to an integer, the convention named by the
specification; it agrees with `Math.round` on non-negative inputs. -/
noncomputable def roundHalfAwayR (x : ℝ) : ℤ :=
  if 0 ≤ x then ⌊x + 1 / 2⌋ else -⌊-x + 1 / 2⌋

/-- Round half away from zero at 2 decimal places. -/
noncomputable def roundAway2R (x : ℝ) : ℝ := (roundHalfAwayR (x * 100) : ℝ) / 100

/-- `codeSizeScore`: fold of `Math.log1p(min(additions + deletions, 2000))`. -/
noncomputable def codeSizeScore (prs : List PRNode) : ℝ :=
  prs.foldl
    (fun sum pr => sum + Real.log (1 + ((min (pr.additions + pr.deletions) 2000 : ℕ) : ℝ)))
    0

/-- `pr_points = merged_prs * 3 + codeSizeScore` (unrounded). -/
noncomputable def prPointsRaw (data : AccEntry) : ℝ :=
  (data.prs.length : ℝ) * 3 + codeSizeScore data.prs

/-- `review_points = reviewsGiven * 1.2` (unrounded). -/
noncomputable def reviewPointsRaw (data : AccEntry) : ℝ :=
  (data.reviewsGiven : ℝ) * 1.2

/-- `total = pr_points + review_points`, in full precision before rounding. -/
noncomputable def totalRaw (data : AccEntry) : ℝ :=
  prPointsRaw data + reviewPointsRaw data

/-- Days elapsed between creation and merge: `(merged - created) / 86_400_000`. -/
def mergeDaysOf (pr : PRNode) : ℚ :=
  ((pr.mergedAt - pr.createdAt : ℤ) : ℚ) / 86400000

/-- `additions + deletions` as a rational, the PR size statistic. -/
def prSize (pr : PRNode) : ℚ := ((pr.additions + pr.deletions : ℕ) : ℚ)

/-- Projection of a PR to the public `TopPR` shape. -/
structure TopPR where
  title : String
  url : String
  mergedAt : ℤ
  additions : ℕ
  deletions : ℕ
deriving DecidableEq

/-- The `map` in the `topPRs` computation. -/
def toTopPR (pr : PRNode) : TopPR :=
  ⟨pr.title, pr.url, pr.mergedAt, pr.additions, pr.deletions⟩

/-- `[...data.prs].sort((a, b) => bTime - aTime).slice(0, 3).map(...)`:
stable sort by `mergedAt` descending, then the first three. -/
def topPRsOf (prs : List PRNode) : List TopPR :=
  ((List.insertionSort (fun a b : PRNode => b.mergedAt ≤ a.mergedAt) prs).take 3).map toTopPR

/-- Hours elapsed from PR creation to the first review, per tracked PR:
`(minSubmittedAt - prCreatedAt) / 3_600_000`. -/
def responseHours (byPr : List (String × ℤ × ℤ)) : List ℚ :=
  byPr.map (fun v => ((v.2.2 - v.2.1 : ℤ) : ℚ) / 3600000)

/-- Output profile of the response-time variant of the engine. -/
structure Engineer where
  login : String
  avatarUrl : String
  total : ℝ
  pr_points : ℝ
  review_points : ℝ
  merged_prs : ℕ
  reviews_given : ℕ
  medianMergeDays : ℚ
  medianPrSize : ℤ
  medianReviewResponseHours : Option ℚ
  topPRs : List TopPR

/-- The per-login reduction of the response-time variant of `computeMetrics`. -/
noncomputable def mkEngineer (fr : FRMap) (login : String) (data : AccEntry) : Engineer :=
  let responseTimesHours : List ℚ :=
    match fr.lookup login with
    | some byPr => if byPr.length ≠ 0 then responseHours byPr else []
    | none => []
  { login := login
    avatarUrl := data.avatarUrl
    total := round2R (totalRaw data)
    pr_points := round2R (prPointsRaw data)
    review_points := round2R (reviewPointsRaw data)
    merged_prs := data.prs.length
    reviews_given := data.reviewsGiven
    medianMergeDays := median (data.prs.map mergeDaysOf)
    medianPrSize := jsRoundQ (median (data.prs.map prSize))
    medianReviewResponseHours :=
      if responseTimesHours.length > 0 then some (round1Q (median responseTimesHours))
      else none
    topPRs := topPRsOf data.prs }

/-- Descending-total comparison used by the final sort. -/
def engLE (a b : Engineer) : Prop := b.total ≤ a.total

noncomputable instance : DecidableRel engLE := fun _ _ => Classical.propDecidable _

instance : IsTotal Engineer engLE := ⟨fun a b => le_total b.total a.total⟩

instance : IsTrans Engineer engLE := ⟨fun _ _ _ h1 h2 => le_trans h2 h1⟩

/-- `engineers.sort((a, b) => b.total - a.total)`: stable descending sort. -/
noncomputable def sortEngineers (l : List Engineer) : List Engineer :=
  List.insertionSort engLE l

/-- The pre-sort `engineers` array, in `authorMap` insertion (first-seen)
order. -/
noncomputable def preRankedEngineers (prs : List PRNode) (ws : ℤ) : List Engineer :=
  (processAll ws prs).1.map (fun p => mkEngineer (processAll ws prs).2 p.1 p.2)

/-- Embedding of the response-time variant of `computeMetrics`. -/
noncomputable def computeMetrics (prs : List PRNode) (ws : ℤ) : List Engineer :=
  sortEngineers (preRankedEngineers prs ws)

/-- Quality signals per engineer (`QualitySignals` in the source). -/
structure QualitySignals where
  prs_with_tests : ℕ
  total_prs_with_merge_commit_found : ℕ
  test_touch_ratio : Option ℚ
deriving DecidableEq

/-- The quality lookup `{ touchedTests: Record<string, boolean | null> }`,
as an association list from commit hash to `boolean | null`. -/
abbrev TouchedTests := List (String × Option Bool)

/-- Embedding of `computeQualityForEngineer`: scan the login's PRs, count
those whose (lower-cased, non-empty) merge-commit hash maps to a boolean in
the lookup, counting the `true` ones separately, and form the rounded ratio. -/
def computeQualityForEngineer (prs : List PRNode) (touchedTests : TouchedTests) :
    QualitySignals :=
  let c : ℕ × ℕ := prs.foldl
    (fun c pr =>
      match pr.mergeCommitOid.map String.toLower with
      | none => c
      | some sha =>
        if sha = "" then c
        else
          match touchedTests.lookup sha with
          | some (some touched) => (if touched then c.1 + 1 else c.1, c.2 + 1)
          | _ => c)
    (0, 0)
  { prs_with_tests := c.1
    total_prs_with_merge_commit_found := c.2
    test_touch_ratio :=
      if c.2 > 0 then some (round2Q ((c.1 : ℚ) / (c.2 : ℚ))) else none }

/-- Output profile of the quality-signals variant of the engine. -/
structure Engineer2 where
  login : String
  avatarUrl : String
  total : ℝ
  pr_points : ℝ
  review_points : ℝ
  merged_prs : ℕ
  reviews_given : ℕ
  medianMergeDays : ℚ
  medianPrSize : ℤ
  quality : Option QualitySignals
  topPRs : List TopPR

/-- The per-login reduction of the quality-signals variant of `computeMetrics`. -/
noncomputable def mkEngineer2 (qualityResult : Option TouchedTests) (login : String)
    (data : AccEntry) : Engineer2 :=
  { login := login
    avatarUrl := data.avatarUrl
    total := round2R (totalRaw data)
    pr_points := round2R (prPointsRaw data)
    review_points := round2R (reviewPointsRaw data)
    merged_prs := data.prs.length
    reviews_given := data.reviewsGiven
    medianMergeDays := median (data.prs.map mergeDaysOf)
    medianPrSize := jsRoundQ (median (data.prs.map prSize))
    quality :=
      match qualityResult with
      | some q => some (computeQualityForEngineer data.prs q)
      | none => none
    topPRs := topPRsOf data.prs }

/-- Descending-total comparison for the quality-signals output. -/
def eng2LE (a b : Engineer2) : Prop := b.total ≤ a.total

noncomputable instance : DecidableRel eng2LE := fun _ _ => Classical.propDecidable _

instance : IsTotal Engineer2 eng2LE := ⟨fun a b => le_total b.total a.total⟩

instance : IsTrans Engineer2 eng2LE := ⟨fun _ _ _ h1 h2 => le_trans h2 h1⟩

/-- Embedding of the quality-signals variant of `computeMetrics`
(`computeMetrics(prs, windowStart, qualityResult)` in the source). -/
noncomputable def computeMetricsQ (prs : List PRNode) (ws : ℤ)
    (qualityResult : Option TouchedTests) : List Engineer2 :=
  List.insertionSort eng2LE
    ((authorFold ws prs).map (fun p => mkEngineer2 qualityResult p.1 p.2))

/-! ### Specification-side counting functions

The definitions below transcribe the specification's and claims' wording for
which PRs and reviews are tallied; the theorems compare the engine's
association-list fold against them. -/

/-- Spec wording: a PR belongs to `login`'s authored list when its author is
non-null, not a bot, and has that login (the analysis window plays no role). -/
def specPRAuthored (login : String) (pr : PRNode) : Bool :=
  match pr.author with
  | none => false
  | some a => !isBot a.login && a.login == login

/-- Spec wording: the full-PR-list filter for a login's authored PRs. -/
def specAuthoredPRs (login : String) (prs : List PRNode) : List PRNode :=
  prs.filter (specPRAuthored login)

/-- Spec wording: a review on a PR authored by `prAuthor` counts for
reviewer `login` when the reviewer is non-null, not a bot, not the PR's
author (no self-reviews), and the review was submitted at or after the
window start. -/
def specReviewCounted (ws : ℤ) (prAuthor login : String) (rv : ReviewNode) : Bool :=
  match rv.author with
  | none => false
  | some r => !isBot r && r != prAuthor && decide (ws ≤ rv.submittedAt) && r == login

/-- Spec wording: how many reviews of a single PR count for `login`; PRs with
a null or bot author contribute nothing, their reviews never being examined. -/
def specPRReviewCount (ws : ℤ) (login : String) (pr : PRNode) : ℕ :=
  match pr.author with
  | none => 0
  | some a =>
    if isBot a.login then 0
    else pr.reviews.countP (specReviewCounted ws a.login login)

/-- Spec wording: a login's total counted reviews over the input list. -/
def specCountedReviews (ws : ℤ) (login : String) (prs : List PRNode) : ℕ :=
  (prs.map (specPRReviewCount ws login)).sum

/-- Lookup-based view of an entry's PR list (`[]` when the login is absent). -/
def prsOf (m : AMap) (login : String) : List PRNode :=
  ((m.lookup login).map AccEntry.prs).getD []

/-- Lookup-based view of an entry's review counter (`0` when absent). -/
def rgOf (m : AMap) (login : String) : ℕ :=
  ((m.lookup login).map AccEntry.reviewsGiven).getD 0

/-- Whether a login has an entry in the author map. -/
def memA (m : AMap) (login : String) : Bool :=
  (m.lookup login).isSome

/-! ### Primitive lemmas about the association-map operations -/

theorem lookup_cons_eq {β : Type} (k l : String) (v : β) (rest : List (String × β))
    (h : l = k) : List.lookup l ((k, v) :: rest) = some v := by
  subst h
  simp [List.lookup]

theorem lookup_cons_ne {β : Type} (k l : String) (v : β) (rest : List (String × β))
    (h : ¬l = k) : List.lookup l ((k, v) :: rest) = List.lookup l rest := by
  have hb : (l == k) = false := by
    simpa using h
  simp [List.lookup, hb]

/-- Avatar stored after `ensure(login, av)` plus the fill-in rule. -/
def avUpd (o : Option AccEntry) (av : String) : String :=
  match o with
  | none => av
  | some e => if e.avatarUrl = "" ∧ av ≠ "" then av else e.avatarUrl

/-- Avatar stored after `ensure(login)` with the default empty avatar. -/
def avOf (o : Option AccEntry) : String :=
  match o with
  | none => ""
  | some e => e.avatarUrl

theorem lookup_pushPR (m : AMap) (a av : String) (pr : PRNode) (l : String) :
    List.lookup l (pushPR m a av pr) =
      if l = a then some ⟨avUpd (List.lookup a m) av, prsOf m a ++ [pr], rgOf m a⟩
      else List.lookup l m := by
  induction m with
  | nil =>
    by_cases h : l = a
    · subst h
      simp [pushPR, prsOf, rgOf, avUpd, List.lookup, lookup_cons_eq _ _ _ _ rfl]
    · have hb : (l == a) = false := by
        simpa using h
      simp [pushPR, h, List.lookup, hb]
  | cons p rest ih =>
    obtain ⟨k, v⟩ := p
    by_cases hka : k = a
    · subst hka
      by_cases h : l = k
      · subst h
        simp [pushPR, prsOf, rgOf, avUpd, lookup_cons_eq _ _ _ _ rfl]
      · simp [pushPR, h, lookup_cons_ne _ _ _ _ h]
    · by_cases h : l = k
      · subst h
        have hla : ¬l = a := hka
        simp [pushPR, hka, hla, lookup_cons_eq _ _ _ _ rfl]
      · have hak : ¬a = k := fun hh => hka hh.symm
        simp only [pushPR, if_neg hka]
        rw [lookup_cons_ne _ _ _ _ h, ih, lookup_cons_ne _ _ _ _ h]
        simp only [prsOf, rgOf, lookup_cons_ne _ _ _ _ hak]

theorem lookup_bumpReview (m : AMap) (a l : String) :
    List.lookup l (bumpReview m a) =
      if l = a then some ⟨avOf (List.lookup a m), prsOf m a, rgOf m a + 1⟩
      else List.lookup l m := by
  induction m with
  | nil =>
    by_cases h : l = a
    · subst h
      simp [bumpReview, prsOf, rgOf, avOf, List.lookup, lookup_cons_eq _ _ _ _ rfl]
    · have hb : (l == a) = false := by
        simpa using h
      simp [bumpReview, h, List.lookup, hb]
  | cons p rest ih =>
    obtain ⟨k, v⟩ := p
    by_cases hka : k = a
    · subst hka
      by_cases h : l = k
      · subst h
        simp [bumpReview, prsOf, rgOf, avOf, lookup_cons_eq _ _ _ _ rfl]
      · simp [bumpReview, h, lookup_cons_ne _ _ _ _ h]
    · by_cases h : l = k
      · subst h
        have hla : ¬l = a := hka
        simp [bumpReview, hka, hla, lookup_cons_eq _ _ _ _ rfl]
      · have hak : ¬a = k := fun hh => hka hh.symm
        simp only [bumpReview, if_neg hka]
        rw [lookup_cons_ne _ _ _ _ h, ih, lookup_cons_ne _ _ _ _ h]
        simp only [prsOf, rgOf, lookup_cons_ne _ _ _ _ hak]

theorem prsOf_pushPR (m : AMap) (a av : String) (pr : PRNode) (l : String) :
    prsOf (pushPR m a av pr) l = if l = a then prsOf m a ++ [pr] else prsOf m l := by
  by_cases h : l = a <;> simp [prsOf, lookup_pushPR, h]

theorem rgOf_pushPR (m : AMap) (a av : String) (pr : PRNode) (l : String) :
    rgOf (pushPR m a av pr) l = rgOf m l := by
  by_cases h : l = a
  · subst h
    simp [rgOf, lookup_pushPR]
  · simp [rgOf, lookup_pushPR, h]

theorem memA_pushPR (m : AMap) (a av : String) (pr : PRNode) (l : String) :
    memA (pushPR m a av pr) l = (memA m l || l == a) := by
  by_cases h : l = a <;> simp [memA, lookup_pushPR, h]

theorem prsOf_bumpReview (m : AMap) (a l : String) :
    prsOf (bumpReview m a) l = prsOf m l := by
  by_cases h : l = a
  · subst h
    simp [prsOf, lookup_bumpReview]
  · simp [prsOf, lookup_bumpReview, h]

theorem rgOf_bumpReview (m : AMap) (a l : String) :
    rgOf (bumpReview m a) l = if l = a then rgOf m a + 1 else rgOf m l := by
  by_cases h : l = a <;> simp [rgOf, lookup_bumpReview, h]

theorem memA_bumpReview (m : AMap) (a l : String) :
    memA (bumpReview m a) l = (memA m l || l == a) := by
  by_cases h : l = a <;> simp [memA, lookup_bumpReview, h]

/-! ### Characterization of the review loop -/

theorem prsOf_reviewStep (ws : ℤ) (a : String) (m : AMap) (rv : ReviewNode) (l : String) :
    prsOf (reviewStep ws a m rv) l = prsOf m l := by
  unfold reviewStep
  cases rv.author with
  | none => rfl
  | some r =>
    by_cases h1 : isBot r
    · simp [h1]
    · by_cases h2 : r = a
      · simp [h1, h2]
      · by_cases h3 : rv.submittedAt < ws
        · simp [h1, h2, h3]
        · simp [h1, h2, h3, prsOf_bumpReview]

theorem rgOf_reviewStep (ws : ℤ) (a : String) (m : AMap) (rv : ReviewNode) (l : String) :
    rgOf (reviewStep ws a m rv) l =
      rgOf m l + (if specReviewCounted ws a l rv then 1 else 0) := by
  unfold reviewStep specReviewCounted
  cases rv.author with
  | none => simp
  | some r =>
    by_cases h1 : isBot r
    · simp [h1]
    · by_cases h2 : r = a
      · simp [h1, h2]
      · by_cases h3 : rv.submittedAt < ws
        · simp [h1, h2, h3, not_le.mpr h3]
        · have hle : ws ≤ rv.submittedAt := not_lt.mp h3
          by_cases h4 : r = l
          · subst h4
            simp [h1, h2, h3, hle, rgOf_bumpReview]
          · have h4s : ¬l = r := fun hh => h4 hh.symm
            simp [h1, h2, h3, hle, h4, h4s, rgOf_bumpReview]

theorem memA_reviewStep (ws : ℤ) (a : String) (m : AMap) (rv : ReviewNode) (l : String) :
    memA (reviewStep ws a m rv) l = (memA m l || specReviewCounted ws a l rv) := by
  unfold reviewStep specReviewCounted
  cases rv.author with
  | none => simp
  | some r =>
    by_cases h1 : isBot r
    · simp [h1]
    · by_cases h2 : r = a
      · simp [h1, h2]
      · by_cases h3 : rv.submittedAt < ws
        · simp [h1, h2, h3, not_le.mpr h3]
        · have hle : ws ≤ rv.submittedAt := not_lt.mp h3
          by_cases h4 : r = l
          · subst h4
            simp [h1, h2, h3, hle, memA_bumpReview]
          · have h4s : ¬l = r := fun hh => h4 hh.symm
            have hb1 : (l == r) = false := by
              simpa using h4s
            have hb2 : (r == l) = false := by
              simpa using h4
            simp [h1, h2, h3, hle, hb1, hb2, memA_bumpReview]

theorem prsOf_reviewFold (ws : ℤ) (a : String) (rvs : List ReviewNode) (m : AMap)
    (l : String) : prsOf (rvs.foldl (reviewStep ws a) m) l = prsOf m l := by
  induction rvs generalizing m with
  | nil => rfl
  | cons rv rvs ih => simp [List.foldl_cons, ih, prsOf_reviewStep]

theorem rgOf_reviewFold (ws : ℤ) (a : String) (rvs : List ReviewNode) (m : AMap)
    (l : String) :
    rgOf (rvs.foldl (reviewStep ws a) m) l =
      rgOf m l + rvs.countP (specReviewCounted ws a l) := by
  induction rvs generalizing m with
  | nil => simp
  | cons rv rvs ih =>
    rw [List.foldl_cons, ih, rgOf_reviewStep, List.countP_cons]
    omega

theorem memA_reviewFold (ws : ℤ) (a : String) (rvs : List ReviewNode) (m : AMap)
    (l : String) :
    memA (rvs.foldl (reviewStep ws a) m) l =
      (memA m l || rvs.any (specReviewCounted ws a l)) := by
  induction rvs generalizing m with
  | nil => simp
  | cons rv rvs ih =>
    rw [List.foldl_cons, ih, memA_reviewStep, List.any_cons]
    cases memA m l <;> cases hrv : specReviewCounted ws a l rv <;> simp [hrv]

/-! ### Characterization of the PR loop -/

theorem prsOf_authorStep (ws : ℤ) (m : AMap) (pr : PRNode) (l : String) :
    prsOf (authorStep ws m pr) l =
      prsOf m l ++ (if specPRAuthored l pr then [pr] else []) := by
  unfold authorStep specPRAuthored
  cases pr.author with
  | none => simp
  | some a =>
    by_cases h1 : isBot a.login
    · simp [h1]
    · by_cases h2 : a.login = l
      · subst h2
        simp [h1, prsOf_reviewFold, prsOf_pushPR]
      · have h2s : ¬l = a.login := fun hh => h2 hh.symm
        simp [h1, h2, h2s, prsOf_reviewFold, prsOf_pushPR]

theorem rgOf_authorStep (ws : ℤ) (m : AMap) (pr : PRNode) (l : String) :
    rgOf (authorStep ws m pr) l = rgOf m l + specPRReviewCount ws l pr := by
  unfold authorStep specPRReviewCount
  cases pr.author with
  | none => simp
  | some a =>
    by_cases h1 : isBot a.login
    · simp [h1]
    · simp [h1, rgOf_reviewFold, rgOf_pushPR]

theorem memA_authorStep (ws : ℤ) (m : AMap) (pr : PRNode) (l : String) :
    memA (authorStep ws m pr) l =
      (memA m l || specPRAuthored l pr || decide (0 < specPRReviewCount ws l pr)) := by
  unfold authorStep specPRAuthored specPRReviewCount
  cases pr.author with
  | none => simp
  | some a =>
    have hany : pr.reviews.any (specReviewCounted ws a.login l) =
        decide (0 < pr.reviews.countP (specReviewCounted ws a.login l)) := by
      by_cases hc : 0 < pr.reviews.countP (specReviewCounted ws a.login l)
      · have hx : pr.reviews.any (specReviewCounted ws a.login l) = true := by
          rw [List.any_eq_true]
          obtain ⟨x, hx, hpx⟩ := List.countP_pos_iff.mp hc
          exact ⟨x, hx, hpx⟩
        rw [hx, decide_eq_true hc]
      · have hx : pr.reviews.any (specReviewCounted ws a.login l) = false := by
          rw [← Bool.not_eq_true, List.any_eq_true]
          rintro ⟨x, hx, hpx⟩
          exact hc (List.countP_pos_iff.mpr ⟨x, hx, hpx⟩)
        rw [hx, decide_eq_false hc]
    by_cases h1 : isBot a.login
    · simp [h1]
    · by_cases h2 : a.login = l
      · subst h2
        simp [h1, memA_reviewFold, memA_pushPR, hany]
      · have h2s : ¬l = a.login := fun hh => h2 hh.symm
        have hb1 : (l == a.login) = false := by
          simpa using h2s
        have hb2 : (a.login == l) = false := by
          simpa using h2
        simp [h1, memA_reviewFold, memA_pushPR, hany, hb1, hb2]

theorem prsOf_authorFoldFrom (ws : ℤ) (prs : List PRNode) (m : AMap) (l : String) :
    prsOf (prs.foldl (authorStep ws) m) l = prsOf m l ++ specAuthoredPRs l prs := by
  induction prs generalizing m with
  | nil => simp [specAuthoredPRs]
  | cons pr prs ih =>
    rw [List.foldl_cons, ih, prsOf_authorStep]
    by_cases h : specPRAuthored l pr <;> simp [specAuthoredPRs, h]

theorem rgOf_authorFoldFrom (ws : ℤ) (prs : List PRNode) (m : AMap) (l : String) :
    rgOf (prs.foldl (authorStep ws) m) l = rgOf m l + specCountedReviews ws l prs := by
  induction prs generalizing m with
  | nil => simp [specCountedReviews]
  | cons pr prs ih =>
    rw [List.foldl_cons, ih, rgOf_authorStep]
    simp [specCountedReviews]
    omega

theorem memA_authorFoldFrom (ws : ℤ) (prs : List PRNode) (m : AMap) (l : String) :
    memA (prs.foldl (authorStep ws) m) l =
      (memA m l || decide (specAuthoredPRs l prs ≠ []) ||
        decide (0 < specCountedReviews ws l prs)) := by
  induction prs generalizing m with
  | nil => simp [specAuthoredPRs, specCountedReviews]
  | cons pr prs ih =>
    rw [List.foldl_cons, ih, memA_authorStep]
    have hsplit1 : specAuthoredPRs l (pr :: prs) =
        (if specPRAuthored l pr then [pr] else []) ++ specAuthoredPRs l prs := by
      by_cases h : specPRAuthored l pr <;> simp [specAuthoredPRs, h]
    have hsplit2 : specCountedReviews ws l (pr :: prs) =
        specPRReviewCount ws l pr + specCountedReviews ws l prs := by
      simp [specCountedReviews]
    rw [hsplit1, hsplit2]
    by_cases h : specPRAuthored l pr <;>
      by_cases hc : 0 < specPRReviewCount ws l pr <;>
        cases hm : memA m l <;>
          simp [h, hc, Nat.pos_iff_ne_zero, Nat.add_eq_zero, not_and_or]

/-- The PR list accumulated for a login is exactly the bot-free filter of the
PRs that login authored, independent of the window. -/
theorem prsOf_authorFold (ws : ℤ) (prs : List PRNode) (l : String) :
    prsOf (authorFold ws prs) l = specAuthoredPRs l prs := by
  rw [authorFold, prsOf_authorFoldFrom]
  rfl

/-- The review counter accumulated for a login is exactly the number of
reviews counted by the specification predicate. -/
theorem rgOf_authorFold (ws : ℤ) (prs : List PRNode) (l : String) :
    rgOf (authorFold ws prs) l = specCountedReviews ws l prs := by
  rw [authorFold, rgOf_authorFoldFrom]
  simp [rgOf, List.lookup]

/-- A login has an entry iff it authored a counted PR or gave a counted review. -/
theorem memA_authorFold (ws : ℤ) (prs : List PRNode) (l : String) :
    memA (authorFold ws prs) l =
      (decide (specAuthoredPRs l prs ≠ []) || decide (0 < specCountedReviews ws l prs)) := by
  rw [authorFold, memA_authorFoldFrom]
  rfl

/-! ### The response-time variant's author map agrees with `authorFold` -/

theorem fst_reviewStepFR (ws : ℤ) (a url : String) (created : ℤ) (s : AMap × FRMap)
    (rv : ReviewNode) : (reviewStepFR ws a url created s rv).1 = reviewStep ws a s.1 rv := by
  unfold reviewStepFR reviewStep
  cases rv.author with
  | none => rfl
  | some r =>
    by_cases h1 : isBot r
    · simp [h1]
    · by_cases h2 : r = a
      · simp [h1, h2]
      · by_cases h3 : rv.submittedAt < ws <;> simp [h1, h2, h3]

theorem fst_reviewFoldFR (ws : ℤ) (a url : String) (created : ℤ)
    (rvs : List ReviewNode) (s : AMap × FRMap) :
    (rvs.foldl (reviewStepFR ws a url created) s).1 = rvs.foldl (reviewStep ws a) s.1 := by
  induction rvs generalizing s with
  | nil => rfl
  | cons rv rvs ih => rw [List.foldl_cons, List.foldl_cons, ih, fst_reviewStepFR]

theorem fst_processPR (ws : ℤ) (s : AMap × FRMap) (pr : PRNode) :
    (processPR ws s pr).1 = authorStep ws s.1 pr := by
  unfold processPR authorStep
  cases pr.author with
  | none => rfl
  | some a =>
    by_cases h1 : isBot a.login
    · simp [h1]
    · simp [h1, fst_reviewFoldFR]

theorem fst_processAll (ws : ℤ) (prs : List PRNode) :
    (processAll ws prs).1 = authorFold ws prs := by
  suffices h : ∀ s : AMap × FRMap, (prs.foldl (processPR ws) s).1 = prs.foldl (authorStep ws) s.1 by
    exact h ([], [])
  induction prs with
  | nil => intro s; rfl
  | cons pr prs ih =>
    intro s
    rw [List.foldl_cons, List.foldl_cons, ih, fst_processPR]

/-! ### Keys of the author map are unique, and entries agree with lookup -/

theorem mem_keys_pushPR (m : AMap) (a av : String) (pr : PRNode) (x : String) :
    x ∈ (pushPR m a av pr).map Prod.fst ↔ x ∈ m.map Prod.fst ∨ x = a := by
  induction m with
  | nil => simp [pushPR]
  | cons p rest ih =>
    obtain ⟨k, v⟩ := p
    by_cases hka : k = a
    · subst hka
      simp [pushPR]
      tauto
    · simp [pushPR, hka, ih]
      tauto

theorem nodup_keys_pushPR (m : AMap) (a av : String) (pr : PRNode)
    (h : (m.map Prod.fst).Nodup) : ((pushPR m a av pr).map Prod.fst).Nodup := by
  induction m with
  | nil => simp [pushPR]
  | cons p rest ih =>
    obtain ⟨k, v⟩ := p
    simp only [List.map_cons, List.nodup_cons] at h
    by_cases hka : k = a
    · subst hka
      simpa [pushPR, List.nodup_cons] using h
    · simp only [pushPR, if_neg hka, List.map_cons, List.nodup_cons]
      refine ⟨fun hmem => ?_, ih h.2⟩
      rcases (mem_keys_pushPR rest a av pr k).mp hmem with hk | hk
      · exact h.1 hk
      · exact hka hk

theorem mem_keys_bumpReview (m : AMap) (a : String) (x : String) :
    x ∈ (bumpReview m a).map Prod.fst ↔ x ∈ m.map Prod.fst ∨ x = a := by
  induction m with
  | nil => simp [bumpReview]
  | cons p rest ih =>
    obtain ⟨k, v⟩ := p
    by_cases hka : k = a
    · subst hka
      simp [bumpReview]
      tauto
    · simp [bumpReview, hka, ih]
      tauto

theorem nodup_keys_bumpReview (m : AMap) (a : String)
    (h : (m.map Prod.fst).Nodup) : ((bumpReview m a).map Prod.fst).Nodup := by
  induction m with
  | nil => simp [bumpReview]
  | cons p rest ih =>
    obtain ⟨k, v⟩ := p
    simp only [List.map_cons, List.nodup_cons] at h
    by_cases hka : k = a
    · subst hka
      simpa [bumpReview, List.nodup_cons] using h
    · simp only [bumpReview, if_neg hka, List.map_cons, List.nodup_cons]
      refine ⟨fun hmem => ?_, ih h.2⟩
      rcases (mem_keys_bumpReview rest a k).mp hmem with hk | hk
      · exact h.1 hk
      · exact hka hk

theorem nodup_keys_reviewStep (ws : ℤ) (a : String) (m : AMap) (rv : ReviewNode)
    (h : (m.map Prod.fst).Nodup) : ((reviewStep ws a m rv).map Prod.fst).Nodup := by
  unfold reviewStep
  cases rv.author with
  | none => exact h
  | some r =>
    by_cases h1 : isBot r
    · simpa [h1] using h
    · by_cases h2 : r = a
      · simpa [h1, h2] using h
      · by_cases h3 : rv.submittedAt < ws
        · simpa [h1, h2, h3] using h
        · simpa [h1, h2, h3] using nodup_keys_bumpReview m r h

theorem nodup_keys_reviewFold (ws : ℤ) (a : String) (rvs : List ReviewNode) (m : AMap)
    (h : (m.map Prod.fst).Nodup) :
    ((rvs.foldl (reviewStep ws a) m).map Prod.fst).Nodup := by
  induction rvs generalizing m with
  | nil => exact h
  | cons rv rvs ih => exact ih _ (nodup_keys_reviewStep ws a m rv h)

theorem nodup_keys_authorStep (ws : ℤ) (m : AMap) (pr : PRNode)
    (h : (m.map Prod.fst).Nodup) : ((authorStep ws m pr).map Prod.fst).Nodup := by
  unfold authorStep
  cases pr.author with
  | none => exact h
  | some a =>
    by_cases h1 : isBot a.login
    · simpa [h1] using h
    · simpa [h1] using
        nodup_keys_reviewFold ws a.login pr.reviews _ (nodup_keys_pushPR m a.login a.avatarUrl pr h)

theorem nodup_keys_authorFold (ws : ℤ) (prs : List PRNode) :
    ((authorFold ws prs).map Prod.fst).Nodup := by
  suffices h : ∀ m : AMap, (m.map Prod.fst).Nodup →
      ((prs.foldl (authorStep ws) m).map Prod.fst).Nodup by
    exact h [] (by simp)
  induction prs with
  | nil => intro m hm; exact hm
  | cons pr prs ih =>
    intro m hm
    exact ih _ (nodup_keys_authorStep ws m pr hm)

theorem lookup_eq_of_mem_nodup {m : AMap} {p : String × AccEntry}
    (hnd : (m.map Prod.fst).Nodup) (hp : p ∈ m) : m.lookup p.1 = some p.2 := by
  induction m with
  | nil => cases hp
  | cons q rest ih =>
    obtain ⟨k, v⟩ := q
    simp only [List.map_cons, List.nodup_cons] at hnd
    rcases List.mem_cons.mp hp with hq | hq
    · subst hq
      exact lookup_cons_eq _ _ _ _ rfl
    · have hne : ¬p.1 = k := by
        intro hh
        exact hnd.1 (hh ▸ (List.mem_map.mpr ⟨p, hq, rfl⟩))
      rw [lookup_cons_ne _ _ _ _ hne]
      exact ih hnd.2 hq

/-- Every entry of the author map carries exactly the spec-side tallies. -/
theorem entry_authorFold (ws : ℤ) (prs : List PRNode) (p : String × AccEntry)
    (hp : p ∈ authorFold ws prs) :
    p.2.prs = specAuthoredPRs p.1 prs ∧
      p.2.reviewsGiven = specCountedReviews ws p.1 prs := by
  have hl : (authorFold ws prs).lookup p.1 = some p.2 :=
    lookup_eq_of_mem_nodup (nodup_keys_authorFold ws prs) hp
  constructor
  · have := prsOf_authorFold ws prs p.1
    rw [prsOf, hl] at this
    simpa using this
  · have := rgOf_authorFold ws prs p.1
    rw [rgOf, hl] at this
    simpa using this

/-! ### All tracked first-review times are in the window -/

/-- Every `minSubmittedAt` recorded in the first-review map is at or after
the window start. -/
def frAllGe (ws : ℤ) (fr : FRMap) : Bool :=
  fr.all (fun q => q.2.all (fun e => decide (ws ≤ e.2.2)))

theorem all_frInsertPR (ws : ℤ) (byPr : List (String × ℤ × ℤ)) (url : String)
    (c sub : ℤ) (h : byPr.all (fun e => decide (ws ≤ e.2.2)) = true) (hsub : ws ≤ sub) :
    (frInsertPR byPr url c sub).all (fun e => decide (ws ≤ e.2.2)) = true := by
  induction byPr with
  | nil => simpa [frInsertPR] using hsub
  | cons e rest ih =>
    simp only [List.all_cons, Bool.and_eq_true] at h
    by_cases h1 : e.1 = url
    · by_cases h2 : sub < e.2.2
      · simp only [frInsertPR, if_pos h1, if_pos h2, List.all_cons, Bool.and_eq_true]
        exact ⟨by simpa using hsub, h.2⟩
      · simp only [frInsertPR, if_pos h1, if_neg h2, List.all_cons, Bool.and_eq_true]
        exact ⟨h.1, h.2⟩
    · simp only [frInsertPR, if_neg h1, List.all_cons, Bool.and_eq_true]
      exact ⟨h.1, ih h.2⟩

theorem frAllGe_frUpdate (ws : ℤ) (fr : FRMap) (r url : String) (c sub : ℤ)
    (h : frAllGe ws fr = true) (hsub : ws ≤ sub) :
    frAllGe ws (frUpdate fr r url c sub) = true := by
  induction fr with
  | nil => simpa [frAllGe, frUpdate] using all_frInsertPR ws [] url c sub (by simp) hsub
  | cons q rest ih =>
    simp only [frAllGe, List.all_cons, Bool.and_eq_true] at h
    by_cases h1 : q.1 = r
    · simp only [frUpdate, if_pos h1, frAllGe, List.all_cons, Bool.and_eq_true]
      exact ⟨all_frInsertPR ws q.2 url c sub h.1 hsub, h.2⟩
    · simp only [frUpdate, if_neg h1, frAllGe, List.all_cons, Bool.and_eq_true]
      exact ⟨h.1, ih h.2⟩

theorem frAllGe_reviewStepFR (ws : ℤ) (a url : String) (c : ℤ) (s : AMap × FRMap)
    (rv : ReviewNode) (h : frAllGe ws s.2 = true) :
    frAllGe ws (reviewStepFR ws a url c s rv).2 = true := by
  unfold reviewStepFR
  cases rv.author with
  | none => exact h
  | some r =>
    by_cases h1 : isBot r
    · simpa [h1] using h
    · by_cases h2 : r = a
      · simpa [h1, h2] using h
      · by_cases h3 : rv.submittedAt < ws
        · simpa [h1, h2, h3] using h
        · simpa [h1, h2, h3] using
            frAllGe_frUpdate ws s.2 r url c rv.submittedAt h (not_lt.mp h3)

theorem frAllGe_processAll (ws : ℤ) (prs : List PRNode) :
    frAllGe ws (processAll ws prs).2 = true := by
  suffices hgen : ∀ s : AMap × FRMap, frAllGe ws s.2 = true →
      frAllGe ws ((prs.foldl (processPR ws) s)).2 = true by
    exact hgen ([], []) (by simp [frAllGe])
  induction prs with
  | nil => intro s hs; exact hs
  | cons pr prs ih =>
    intro s hs
    rw [List.foldl_cons]
    refine ih _ ?_
    unfold processPR
    cases pr.author with
    | none => exact hs
    | some a =>
      by_cases h1 : isBot a.login
      · simpa [h1] using hs
      · simp only [if_neg h1]
        have hfold : ∀ (rvs : List ReviewNode) (t : AMap × FRMap), frAllGe ws t.2 = true →
            frAllGe ws (rvs.foldl (reviewStepFR ws a.login pr.url pr.createdAt) t).2 = true := by
          intro rvs
          induction rvs with
          | nil => intro t ht; exact ht
          | cons rv rvs ihr =>
            intro t ht
            exact ihr _ (frAllGe_reviewStepFR ws a.login pr.url pr.createdAt t rv ht)
        exact hfold pr.reviews _ hs

/-! ### Membership in the engine output -/

theorem mem_computeMetrics {prs : List PRNode} {ws : ℤ} {e : Engineer} :
    e ∈ computeMetrics prs ws ↔
      ∃ p ∈ (processAll ws prs).1, e = mkEngineer (processAll ws prs).2 p.1 p.2 := by
  unfold computeMetrics sortEngineers preRankedEngineers
  rw [List.mem_insertionSort, List.mem_map]
  constructor
  · rintro ⟨p, hp, he⟩
    exact ⟨p, hp, he.symm⟩
  · rintro ⟨p, hp, he⟩
    exact ⟨p, hp, he.symm⟩

theorem mem_computeMetricsQ {prs : List PRNode} {ws : ℤ} {q : Option TouchedTests}
    {e : Engineer2} :
    e ∈ computeMetricsQ prs ws q ↔
      ∃ p ∈ authorFold ws prs, e = mkEngineer2 q p.1 p.2 := by
  unfold computeMetricsQ
  rw [List.mem_insertionSort, List.mem_map]
  constructor
  · rintro ⟨p, hp, he⟩
    exact ⟨p, hp, he.symm⟩
  · rintro ⟨p, hp, he⟩
    exact ⟨p, hp, he.symm⟩

/-! ### Scoring arithmetic -/

theorem foldl_add_eq_sum {α : Type} (f : α → ℝ) (l : List α) (init : ℝ) :
    l.foldl (fun s x => s + f x) init = init + (l.map f).sum := by
  induction l generalizing init with
  | nil => simp
  | cons x xs ih => simp [ih, add_assoc]

theorem codeSizeScore_eq_sum (prs : List PRNode) :
    codeSizeScore prs =
      (prs.map (fun pr =>
        Real.log (1 + ((min (pr.additions + pr.deletions) 2000 : ℕ) : ℝ)))).sum := by
  rw [codeSizeScore, foldl_add_eq_sum]
  simp

theorem codeSizeScore_nonneg (prs : List PRNode) : 0 ≤ codeSizeScore prs := by
  rw [codeSizeScore_eq_sum]
  refine List.sum_nonneg ?_
  intro x hx
  obtain ⟨pr, _, rfl⟩ := List.mem_map.mp hx
  refine Real.log_nonneg ?_
  have : (0 : ℝ) ≤ ((min (pr.additions + pr.deletions) 2000 : ℕ) : ℝ) := by positivity
  linarith

theorem prPointsRaw_nonneg (d : AccEntry) : 0 ≤ prPointsRaw d := by
  have h1 : (0 : ℝ) ≤ (d.prs.length : ℝ) * 3 := by positivity
  have h2 := codeSizeScore_nonneg d.prs
  unfold prPointsRaw
  linarith

theorem reviewPointsRaw_nonneg (d : AccEntry) : 0 ≤ reviewPointsRaw d := by
  unfold reviewPointsRaw
  positivity

theorem totalRaw_nonneg (d : AccEntry) : 0 ≤ totalRaw d := by
  have h1 := prPointsRaw_nonneg d
  have h2 := reviewPointsRaw_nonneg d
  unfold totalRaw
  linarith

theorem round2R_eq_roundAway2R {x : ℝ} (hx : 0 ≤ x) : round2R x = roundAway2R x := by
  unfold round2R roundAway2R jsRoundR roundHalfAwayR
  rw [if_pos (by positivity : (0 : ℝ) ≤ x * 100)]

/-- Rounding the exact sum and summing the two roundings differ by at most
one hundredth. -/
theorem abs_round2R_add_sub_le (a b : ℝ) :
    |round2R (a + b) - (round2R a + round2R b)| ≤ 1 / 100 := by
  unfold round2R jsRoundR
  have hAB : (a + b) * 100 = a * 100 + b * 100 := by ring
  rw [hAB]
  set A := a * 100 with hA
  set B := b * 100 with hB
  set d : ℤ := ⌊A + B + 1 / 2⌋ - ⌊A + 1 / 2⌋ - ⌊B + 1 / 2⌋ with hd
  have hexpr : ((⌊A + B + 1 / 2⌋ : ℤ) : ℝ) / 100 -
      (((⌊A + 1 / 2⌋ : ℤ) : ℝ) / 100 + ((⌊B + 1 / 2⌋ : ℤ) : ℝ) / 100) = (d : ℝ) / 100 := by
    rw [hd]
    push_cast
    ring
  rw [hexpr]
  have fle1 : ((⌊A + B + 1 / 2⌋ : ℤ) : ℝ) ≤ A + B + 1 / 2 := Int.floor_le _
  have fle2 : ((⌊A + 1 / 2⌋ : ℤ) : ℝ) ≤ A + 1 / 2 := Int.floor_le _
  have fle3 : ((⌊B + 1 / 2⌋ : ℤ) : ℝ) ≤ B + 1 / 2 := Int.floor_le _
  have fgt1 : A + B + 1 / 2 < ((⌊A + B + 1 / 2⌋ : ℤ) : ℝ) + 1 := Int.lt_floor_add_one _
  have fgt2 : A + 1 / 2 < ((⌊A + 1 / 2⌋ : ℤ) : ℝ) + 1 := Int.lt_floor_add_one _
  have fgt3 : B + 1 / 2 < ((⌊B + 1 / 2⌋ : ℤ) : ℝ) + 1 := Int.lt_floor_add_one _
  have hlt : (d : ℝ) < 3 / 2 := by
    rw [hd]
    push_cast
    linarith
  have hgt : -(3 / 2) < (d : ℝ) := by
    rw [hd]
    push_cast
    linarith
  have habs : |(d : ℝ)| < 3 / 2 := abs_lt.mpr ⟨hgt, hlt⟩
  have hint : |d| ≤ 1 := by
    by_contra hcon
    have h2 : (2 : ℤ) ≤ |d| := by omega
    have h2r : ((2 : ℤ) : ℝ) ≤ ((|d| : ℤ) : ℝ) := by exact_mod_cast h2
    rw [Int.cast_abs] at h2r
    push_cast at h2r
    linarith
  have habs1 : |(d : ℝ)| ≤ 1 := by
    rw [← Int.cast_abs]
    exact_mod_cast hint
  rw [abs_div]
  rw [abs_of_pos (by norm_num : (0 : ℝ) < 100)]
  linarith

/-! ### The median against an arbitrary sorted permutation -/

theorem median_perm_sorted (l l' : List ℚ) (hperm : l.Perm l')
    (hsort : l'.Sorted (fun a b : ℚ => a ≤ b)) :
    median l =
      if l.length = 0 then 0
      else if l.length % 2 ≠ 0 then l'.getD (l.length / 2) 0
      else (l'.getD (l.length / 2 - 1) 0 + l'.getD (l.length / 2) 0) / 2 := by
  have hs : List.insertionSort (fun a b : ℚ => a ≤ b) l = l' :=
    List.eq_of_perm_of_sorted ((List.perm_insertionSort _ l).trans hperm)
      (List.sorted_insertionSort _ l) hsort
  have hlen : (List.insertionSort (fun a b : ℚ => a ≤ b) l).length = l.length :=
    List.length_insertionSort _ l
  unfold median
  rw [hs] at hlen ⊢
  simp only [hlen]

/-! ### Stability of the final sort -/

theorem filter_orderedInsert {α : Type} (r : α → α → Prop) [DecidableRel r]
    (p : α → Bool) (x : α) (l : List α)
    (hx : p x = true → ∀ b ∈ l, p b = true → r x b) :
    (List.orderedInsert r x l).filter p =
      if p x then x :: l.filter p else l.filter p := by
  have hsplit : l.filter p =
      (l.takeWhile (fun b => decide ¬r x b)).filter p ++
        (l.dropWhile (fun b => decide ¬r x b)).filter p := by
    rw [← List.filter_append, List.takeWhile_append_dropWhile]
  rw [List.orderedInsert_eq_take_drop, List.filter_append]
  by_cases hpx : p x
  · have htake : (l.takeWhile (fun b => decide ¬r x b)).filter p = [] := by
      rw [List.filter_eq_nil_iff]
      intro b hb hpb
      have hmem : b ∈ l := (List.takeWhile_sublist _).mem hb
      have hnr : ¬r x b := by simpa using List.mem_takeWhile_imp hb
      exact hnr (hx hpx b hmem hpb)
    rw [if_pos hpx, htake, hsplit, htake, List.filter_cons, if_pos hpx]
    simp
  · rw [if_neg hpx, List.filter_cons, if_neg hpx, hsplit]

theorem filter_insertionSort {α : Type} (r : α → α → Prop) [DecidableRel r]
    (p : α → Bool) (hmut : ∀ x y, p x = true → p y = true → r x y) (l : List α) :
    (List.insertionSort r l).filter p = l.filter p := by
  induction l with
  | nil => rfl
  | cons a l ih =>
    rw [List.insertionSort,
      filter_orderedInsert r p a _ (fun hpa b _ hpb => hmut a b hpa hpb), List.filter_cons]
    by_cases hpa : p a <;> simp [hpa, ih]

open Classical in
/-- The sub-list of output profiles having a given total score. -/
noncomputable def filterTotal (t : ℝ) (l : List Engineer) : List Engineer :=
  l.filter (fun e => decide (e.total = t))

/-! ### Dropped inputs that the engine ignores -/

theorem foldl_filter_eq {α β : Type} (f : β → α → β) (p : α → Bool) (l : List α)
    (h : ∀ b x, p x = false → f b x = b) (init : β) :
    (l.filter p).foldl f init = l.foldl f init := by
  induction l generalizing init with
  | nil => rfl
  | cons x xs ih =>
    by_cases hp : p x
    · rw [List.filter_cons, if_pos hp, List.foldl_cons, List.foldl_cons, ih]
    · rw [List.filter_cons, if_neg (by simpa using hp), List.foldl_cons,
        h init x (by simpa using hp), ih]

/-- Replace a PR's review list by the reviews satisfying `q pr`. -/
def filterReviews (q : PRNode → ReviewNode → Bool) (pr : PRNode) : PRNode :=
  { pr with reviews := pr.reviews.filter (q pr) }

/-- Apply a PR transformation to every PR stored inside the author map. -/
def mapAccPrs (g : PRNode → PRNode) (m : AMap) : AMap :=
  m.map (fun p => (p.1, ⟨p.2.avatarUrl, p.2.prs.map g, p.2.reviewsGiven⟩))

theorem pushPR_mapAccPrs (g : PRNode → PRNode) (m : AMap) (a av : String) (pr : PRNode) :
    pushPR (mapAccPrs g m) a av (g pr) = mapAccPrs g (pushPR m a av pr) := by
  induction m with
  | nil => simp [pushPR, mapAccPrs]
  | cons p rest ih =>
    obtain ⟨k, v⟩ := p
    by_cases hka : k = a
    · subst hka
      simp [pushPR, mapAccPrs]
    · simp [pushPR, mapAccPrs, hka] at ih ⊢
      exact ih

theorem bumpReview_mapAccPrs (g : PRNode → PRNode) (m : AMap) (r : String) :
    bumpReview (mapAccPrs g m) r = mapAccPrs g (bumpReview m r) := by
  induction m with
  | nil => simp [bumpReview, mapAccPrs]
  | cons p rest ih =>
    obtain ⟨k, v⟩ := p
    by_cases hkr : k = r
    · subst hkr
      simp [bumpReview, mapAccPrs]
    · simp [bumpReview, mapAccPrs, hkr] at ih ⊢
      exact ih

theorem reviewStepFR_mapAccPrs (g : PRNode → PRNode) (ws : ℤ) (a url : String) (c : ℤ)
    (m : AMap) (f : FRMap) (rv : ReviewNode) :
    reviewStepFR ws a url c (mapAccPrs g m, f) rv =
      ((mapAccPrs g (reviewStepFR ws a url c (m, f) rv).1),
        (reviewStepFR ws a url c (m, f) rv).2) := by
  unfold reviewStepFR
  cases rv.author with
  | none => rfl
  | some r =>
    by_cases h1 : isBot r
    · simp [h1]
    · by_cases h2 : r = a
      · simp [h1, h2]
      · by_cases h3 : rv.submittedAt < ws
        · simp [h1, h2, h3]
        · simp [h1, h2, h3, bumpReview_mapAccPrs]

theorem reviewFoldFR_mapAccPrs (g : PRNode → PRNode) (ws : ℤ) (a url : String) (c : ℤ)
    (rvs : List ReviewNode) (m : AMap) (f : FRMap) :
    rvs.foldl (reviewStepFR ws a url c) (mapAccPrs g m, f) =
      ((mapAccPrs g (rvs.foldl (reviewStepFR ws a url c) (m, f)).1),
        (rvs.foldl (reviewStepFR ws a url c) (m, f)).2) := by
  induction rvs generalizing m f with
  | nil => rfl
  | cons rv rvs ih =>
    rw [List.foldl_cons, List.foldl_cons, reviewStepFR_mapAccPrs]
    rw [ih (reviewStepFR ws a url c (m, f) rv).1 (reviewStepFR ws a url c (m, f) rv).2]

theorem processAll_filterReviews (ws : ℤ) (q : PRNode → ReviewNode → Bool)
    (hq : ∀ pr (a : PRAuthor), pr.author = some a → isBot a.login = false →
      ∀ rv, q pr rv = false → ∀ s : AMap × FRMap,
        reviewStepFR ws a.login pr.url pr.createdAt s rv = s)
    (prs : List PRNode) :
    processAll ws (prs.map (filterReviews q)) =
      ((mapAccPrs (filterReviews q) (processAll ws prs).1), (processAll ws prs).2) := by
  suffices hgen : ∀ (m : AMap) (f : FRMap),
      (prs.map (filterReviews q)).foldl (processPR ws) (mapAccPrs (filterReviews q) m, f) =
        ((mapAccPrs (filterReviews q) (prs.foldl (processPR ws) (m, f)).1),
          (prs.foldl (processPR ws) (m, f)).2) by
    have := hgen [] []
    simpa [processAll, mapAccPrs] using this
  induction prs with
  | nil => intro m f; rfl
  | cons pr prs ih =>
    intro m f
    rw [List.map_cons, List.foldl_cons, List.foldl_cons]
    have hstep : processPR ws (mapAccPrs (filterReviews q) m, f) (filterReviews q pr) =
        ((mapAccPrs (filterReviews q) (processPR ws (m, f) pr).1),
          (processPR ws (m, f) pr).2) := by
      unfold processPR
      have hauthor : (filterReviews q pr).author = pr.author := rfl
      rw [hauthor]
      cases hpa : pr.author with
      | none => rfl
      | some a =>
        by_cases h1 : isBot a.login
        · simp [h1]
        · simp only [h1, if_neg, Bool.false_eq_true, not_false_eq_true]
          have hurl : (filterReviews q pr).url = pr.url := rfl
          have hcreated : (filterReviews q pr).createdAt = pr.createdAt := rfl
          have hrevs : (filterReviews q pr).reviews = pr.reviews.filter (q pr) := rfl
          rw [hurl, hcreated, hrevs, pushPR_mapAccPrs]
          rw [foldl_filter_eq _ (q pr) pr.reviews
            (fun s rv hrv => hq pr a hpa (by simpa using h1) rv hrv s) _]
          exact reviewFoldFR_mapAccPrs (filterReviews q) ws a.login pr.url pr.createdAt
            pr.reviews (pushPR m a.login a.avatarUrl pr) f
    rw [hstep]
    exact ih (processPR ws (m, f) pr).1 (processPR ws (m, f) pr).2

theorem totalRaw_reviews_only (g : PRNode → PRNode)
    (hg : ∀ pr, ∃ rvs, g pr = { pr with reviews := rvs })
    (av : String) (prs : List PRNode) (rg : ℕ) :
    totalRaw ⟨av, prs.map g, rg⟩ = totalRaw ⟨av, prs, rg⟩ := by
  have hsz : codeSizeScore (prs.map g) = codeSizeScore prs := by
    rw [codeSizeScore_eq_sum, codeSizeScore_eq_sum, List.map_map]
    congr 1
    refine List.map_congr_left ?_
    intro pr _
    obtain ⟨rvs, hpr⟩ := hg pr
    simp [Function.comp, hpr]
  unfold totalRaw prPointsRaw reviewPointsRaw
  simp only [List.length_map, hsz]

theorem mkEngineer_reviews_only (g : PRNode → PRNode)
    (hg : ∀ pr, ∃ rvs, g pr = { pr with reviews := rvs })
    (fr : FRMap) (login av : String) (prs : List PRNode) (rg : ℕ) :
    mkEngineer fr login ⟨av, prs.map g, rg⟩ = mkEngineer fr login ⟨av, prs, rg⟩ := by
  have hsz : codeSizeScore (prs.map g) = codeSizeScore prs := by
    rw [codeSizeScore_eq_sum, codeSizeScore_eq_sum, List.map_map]
    congr 1
    refine List.map_congr_left ?_
    intro pr _
    obtain ⟨rvs, hpr⟩ := hg pr
    simp [Function.comp, hpr]
  have hmd : (prs.map g).map mergeDaysOf = prs.map mergeDaysOf := by
    rw [List.map_map]
    refine List.map_congr_left ?_
    intro pr _
    obtain ⟨rvs, hpr⟩ := hg pr
    simp [Function.comp, mergeDaysOf, hpr]
  have hps : (prs.map g).map prSize = prs.map prSize := by
    rw [List.map_map]
    refine List.map_congr_left ?_
    intro pr _
    obtain ⟨rvs, hpr⟩ := hg pr
    simp [Function.comp, prSize, hpr]
  have htop : topPRsOf (prs.map g) = topPRsOf prs := by
    have hiff : ∀ a ∈ prs, ∀ b ∈ prs,
        (fun x y : PRNode => y.mergedAt ≤ x.mergedAt) a b ↔
          (fun x y : PRNode => y.mergedAt ≤ x.mergedAt) (g a) (g b) := by
      intro a _ b _
      obtain ⟨rvsa, ha⟩ := hg a
      obtain ⟨rvsb, hb⟩ := hg b
      simp [ha, hb]
    have hsort := List.map_insertionSort (fun x y : PRNode => y.mergedAt ≤ x.mergedAt)
      (fun x y : PRNode => y.mergedAt ≤ x.mergedAt) g prs hiff
    unfold topPRsOf
    rw [← hsort, ← List.map_take, List.map_map]
    refine List.map_congr_left ?_
    intro pr _
    obtain ⟨rvs, hpr⟩ := hg pr
    simp [Function.comp, toTopPR, hpr]
  unfold mkEngineer
  simp only [totalRaw, prPointsRaw, reviewPointsRaw, List.length_map, hsz, hmd, hps, htop]

theorem processPR_eq_of_bot_author (ws : ℤ) (s : AMap × FRMap) (pr : PRNode)
    (h : ∃ a : PRAuthor, pr.author = some a ∧ isBot a.login = true) :
    processPR ws s pr = s := by
  obtain ⟨a, ha, hbot⟩ := h
  unfold processPR
  rw [ha]
  simp [hbot]

theorem memA_of_mem {m : AMap} {p : String × AccEntry} (hp : p ∈ m) : memA m p.1 = true := by
  induction m with
  | nil => cases hp
  | cons q rest ih =>
    obtain ⟨k, v⟩ := q
    rcases List.mem_cons.mp hp with h | h
    · subst h
      simp [memA, lookup_cons_eq _ _ _ _ rfl]
    · by_cases hk : p.1 = k
      · simp [memA, lookup_cons_eq _ _ _ _ hk]
      · rw [memA, lookup_cons_ne _ _ _ _ hk]
        exact ih h

theorem isBot_false_of_present (ws : ℤ) (prs : List PRNode) (l : String)
    (h : memA (authorFold ws prs) l = true) : isBot l = false := by
  rw [memA_authorFold] at h
  simp only [Bool.or_eq_true, decide_eq_true_eq] at h
  rcases h with h | h
  · obtain ⟨pr, hpr⟩ := List.exists_mem_of_ne_nil _ h
    have hf : specPRAuthored l pr = true := (List.mem_filter.mp hpr).2
    unfold specPRAuthored at hf
    cases hpa : pr.author with
    | none => rw [hpa] at hf; cases hf
    | some a =>
      rw [hpa] at hf
      simp only [Bool.and_eq_true, Bool.not_eq_true', beq_iff_eq] at hf
      exact hf.2 ▸ hf.1
  · unfold specCountedReviews at h
    by_cases hz : ∀ x ∈ prs.map (specPRReviewCount ws l), x = 0
    · rw [List.sum_eq_zero hz] at h
      exact absurd h (lt_irrefl 0)
    · push_neg at hz
      obtain ⟨x, hx, hxz⟩ := hz
      obtain ⟨pr, _, rfl⟩ := List.mem_map.mp hx
      unfold specPRReviewCount at hxz
      cases hpa : pr.author with
      | none => rw [hpa] at hxz; exact absurd rfl hxz
      | some a =>
        rw [hpa] at hxz
        dsimp only at hxz
        by_cases hb : isBot a.login
        · rw [if_pos hb] at hxz
          exact absurd rfl hxz
        · rw [if_neg hb] at hxz
          have hpos : 0 < pr.reviews.countP (specReviewCounted ws a.login l) :=
            Nat.pos_of_ne_zero hxz
          obtain ⟨rv, _, hrv⟩ := List.countP_pos_iff.mp hpos
          unfold specReviewCounted at hrv
          cases hra : rv.author with
          | none => rw [hra] at hrv; cases hrv
          | some r =>
            rw [hra] at hrv
            simp only [Bool.and_eq_true, Bool.not_eq_true', beq_iff_eq] at hrv
            exact hrv.2 ▸ hrv.1.1.1

theorem computeMetrics_filterReviews (ws : ℤ) (q : PRNode → ReviewNode → Bool)
    (hq : ∀ pr (a : PRAuthor), pr.author = some a → isBot a.login = false →
      ∀ rv, q pr rv = false → ∀ s : AMap × FRMap,
        reviewStepFR ws a.login pr.url pr.createdAt s rv = s)
    (prs : List PRNode) :
    computeMetrics (prs.map (filterReviews q)) ws = computeMetrics prs ws := by
  unfold computeMetrics preRankedEngineers
  rw [processAll_filterReviews ws q hq prs]
  congr 1
  unfold mapAccPrs
  rw [List.map_map]
  refine List.map_congr_left ?_
  intro p _
  have hg : ∀ pr, ∃ rvs, filterReviews q pr = { pr with reviews := rvs } :=
    fun pr => ⟨pr.reviews.filter (q pr), rfl⟩
  have := mkEngineer_reviews_only (filterReviews q) hg (processAll ws prs).2 p.1
    p.2.avatarUrl p.2.prs p.2.reviewsGiven
  simpa [Function.comp] using this

theorem computeMetrics_congr_processAll (prs1 prs2 : List PRNode) (ws : ℤ)
    (h : processAll ws prs1 = processAll ws prs2) :
    computeMetrics prs1 ws = computeMetrics prs2 ws := by
  unfold computeMetrics preRankedEngineers
  rw [h]

/-! ### Characterization of the quality-signal scan -/

/-- Spec wording for the amended claim: a PR counts toward the denominator
when its merge-commit hash is present, non-empty once lower-cased, and maps
to a boolean (not null/unknown) in the lookup. -/
def specQualFound (tt : TouchedTests) (pr : PRNode) : Bool :=
  match pr.mergeCommitOid with
  | none => false
  | some oid =>
    decide (oid.toLower ≠ "") &&
      (match tt.lookup oid.toLower with
       | some (some _) => true
       | _ => false)

/-- Spec wording for the amended claim: a PR counts toward the numerator when
its hash additionally maps to `true`. -/
def specQualTest (tt : TouchedTests) (pr : PRNode) : Bool :=
  match pr.mergeCommitOid with
  | none => false
  | some oid =>
    decide (oid.toLower ≠ "") &&
      (match tt.lookup oid.toLower with
       | some (some touched) => touched
       | _ => false)

/-- Claim wording, verbatim: any present hash with a boolean value counts,
with no non-emptiness requirement. -/
def claimQualFound (tt : TouchedTests) (pr : PRNode) : Bool :=
  match pr.mergeCommitOid with
  | none => false
  | some oid =>
    match tt.lookup oid.toLower with
    | some (some _) => true
    | _ => false

/-- Claim wording, verbatim: the numerator variant of `claimQualFound`. -/
def claimQualTest (tt : TouchedTests) (pr : PRNode) : Bool :=
  match pr.mergeCommitOid with
  | none => false
  | some oid =>
    match tt.lookup oid.toLower with
    | some (some touched) => touched
    | _ => false

theorem computeQualityForEngineer_eq (prs : List PRNode) (tt : TouchedTests) :
    computeQualityForEngineer prs tt =
      { prs_with_tests := prs.countP (specQualTest tt)
        total_prs_with_merge_commit_found := prs.countP (specQualFound tt)
        test_touch_ratio :=
          if 0 < prs.countP (specQualFound tt) then
            some (round2Q ((prs.countP (specQualTest tt) : ℚ) /
              (prs.countP (specQualFound tt) : ℚ)))
          else none } := by
  have hfold : ∀ c : ℕ × ℕ,
      prs.foldl
        (fun c pr =>
          match pr.mergeCommitOid.map String.toLower with
          | none => c
          | some sha =>
            if sha = "" then c
            else
              match tt.lookup sha with
              | some (some touched) => (if touched then c.1 + 1 else c.1, c.2 + 1)
              | _ => c)
        c =
      (c.1 + prs.countP (specQualTest tt), c.2 + prs.countP (specQualFound tt)) := by
    induction prs with
    | nil => intro c; simp [List.countP_nil]
    | cons pr prs ih =>
      intro c
      rw [List.foldl_cons, List.countP_cons, List.countP_cons]
      have hgoal : ∀ c' : ℕ × ℕ,
          c' = (c.1 + (if specQualTest tt pr then 1 else 0),
            c.2 + (if specQualFound tt pr then 1 else 0)) →
          prs.foldl
            (fun c pr =>
              match pr.mergeCommitOid.map String.toLower with
              | none => c
              | some sha =>
                if sha = "" then c
                else
                  match tt.lookup sha with
                  | some (some touched) => (if touched then c.1 + 1 else c.1, c.2 + 1)
                  | _ => c)
            c' =
          (c.1 + (prs.countP (specQualTest tt) + if specQualTest tt pr then 1 else 0),
            c.2 + (prs.countP (specQualFound tt) + if specQualFound tt pr then 1 else 0)) := by
        intro c' hc'
        rw [ih c', hc']
        dsimp only
        rw [Prod.mk.injEq]
        constructor <;> omega
      refine hgoal _ ?_
      unfold specQualTest specQualFound
      cases hoid : pr.mergeCommitOid with
      | none => simp
      | some oid =>
        rw [show Option.map String.toLower (some oid) = some (oid.toLower) from rfl]
        dsimp only
        by_cases hsha : oid.toLower = ""
        · simp [hsha]
        · rw [if_neg hsha]
          cases hlk : List.lookup oid.toLower tt with
          | none => simp [hsha, hlk]
          | some ob =>
            cases ob with
            | none => simp [hsha, hlk]
            | some touched =>
              cases touched <;> simp [hsha, hlk]
  unfold computeQualityForEngineer
  rw [hfold (0, 0)]
  simp

/-! ### Claim theorems -/

/-- C2: the median returns 0 on the empty list, the middle element of the
ascending-sorted list for odd length, the mean of the two middle elements
for even length; in particular `median [] = 0`, `median [5] = 5`,
`median [1,3] = 2` and `median [1,2,9] = 2`. (The embedding is a pure
function, so the input list cannot be mutated.) -/
theorem median_contract :
    (median [] = 0 ∧ median [5] = 5 ∧ median [1, 3] = 2 ∧ median [1, 2, 9] = 2) ∧
    ∀ (l l' : List ℚ), l.Perm l' → l'.Sorted (fun a b : ℚ => a ≤ b) →
      median l =
        (if l.length = 0 then 0
         else if l.length % 2 ≠ 0 then l'.getD (l.length / 2) 0
         else (l'.getD (l.length / 2 - 1) 0 + l'.getD (l.length / 2) 0) / 2) := by
  refine ⟨⟨?_, ?_, ?_, ?_⟩, median_perm_sorted⟩ <;> with_unfolding_all rfl

/-- Witness for C2: the general clause applied to the concrete sorted
permutation `[1, 2, 9]` of `[1, 2, 9]`. -/
theorem median_contract_witness :
    ([1, 2, 9] : List ℚ).Perm [1, 2, 9] ∧
      List.Sorted (fun a b : ℚ => a ≤ b) [1, 2, 9] ∧
      median [1, 2, 9] =
        (if ([1, 2, 9] : List ℚ).length = 0 then 0
         else if ([1, 2, 9] : List ℚ).length % 2 ≠ 0 then
           ([1, 2, 9] : List ℚ).getD (([1, 2, 9] : List ℚ).length / 2) 0
         else (([1, 2, 9] : List ℚ).getD (([1, 2, 9] : List ℚ).length / 2 - 1) 0 +
           ([1, 2, 9] : List ℚ).getD (([1, 2, 9] : List ℚ).length / 2) 0) / 2) :=
  ⟨List.Perm.refl _, of_decide_eq_true (by with_unfolding_all rfl),
    median_contract.2 [1, 2, 9] [1, 2, 9] (List.Perm.refl _)
      (of_decide_eq_true (by with_unfolding_all rfl))⟩

/-- C9: with a null quality-signal input the engine still produces its
profiles (the embedding is total), and every profile's quality field is
null. -/
theorem computeMetricsQ_null_quality (prs : List PRNode) (ws : ℤ) :
    (computeMetricsQ prs ws none).all (fun e => e.quality.isNone) = true := by
  rw [List.all_eq_true]
  intro e he
  obtain ⟨p, _, rfl⟩ := mem_computeMetricsQ.mp he
  simp [mkEngineer2]

/-- Concrete PR used to refute the upper window bound of C4: a review on a
human-authored PR submitted at time 20, far after a nominal `now` of 10. -/
def prWin : PRNode :=
  ⟨"t", "u", 0, 0, none, 0, 0, some ⟨"alice", ""⟩, [⟨some ("carol"), 20, "APPROVED"⟩]⟩

/-- Counterexample to C4 as stated: with `windowStart = 0` and `now = 10`,
carol's only review (submitted at 20) lies outside `[windowStart, now]`,
yet her review counter is 1 — the code never checks an upper bound, so the
review is not excluded. -/
theorem review_window_upper_bound_cex :
    (prWin.reviews.all (fun rv => decide (rv.submittedAt < 0 ∨ 10 < rv.submittedAt)) = true) ∧
      rgOf (authorFold 0 [prWin]) "carol" = 1 :=
  ⟨by with_unfolding_all rfl, by with_unfolding_all rfl⟩

/-- C4 (amended): only the lower window bound is enforced. Reviews submitted
strictly before `windowStart` are excluded from every reviewer's counter
(which equals the spec-side count requiring `windowStart ≤ submittedAt`) and
from first-review response-time tracking (every tracked time is
`≥ windowStart`), while each login's PR list is the full window-independent
authored filter. No upper bound is applied. -/
theorem review_window_lower_bound_only (prs : List PRNode) (ws : ℤ) :
    ((authorFold ws prs).all (fun p =>
        decide (p.2.prs = specAuthoredPRs p.1 prs) &&
          decide (p.2.reviewsGiven = specCountedReviews ws p.1 prs)) = true) ∧
      frAllGe ws (processAll ws prs).2 = true := by
  constructor
  · rw [List.all_eq_true]
    intro p hp
    have h := entry_authorFold ws prs p hp
    simp [h.1, h.2]
  · exact frAllGe_processAll ws prs

/-- Concrete PR used to refute the no-empty-hash reading of C8: the merge
commit hash is the empty string, which is present in the lookup with value
`true` but which the code skips as falsy. -/
def prQual : PRNode := ⟨"t", "u", 0, 0, some (""), 0, 0, some ⟨"alice", ""⟩, []⟩

/-- The lookup for the C8 counterexample: the empty hash maps to `true`. -/
def ttQual : TouchedTests := [("", some true)]

/-- Counterexample to C8 as stated: with an empty-string merge-commit hash
present in the lookup with a boolean value, the claim's counting rule
predicts `prsWithTests = 1`, `totalPrsWithMergeCommitFound = 1`,
`ratio = 1`, but the code skips the empty hash entirely and returns zero
counts with a null ratio. -/
theorem computeQuality_empty_hash_cex :
    computeQualityForEngineer [prQual] ttQual ≠
      { prs_with_tests := [prQual].countP (claimQualTest ttQual)
        total_prs_with_merge_commit_found := [prQual].countP (claimQualFound ttQual)
        test_touch_ratio :=
          if 0 < [prQual].countP (claimQualFound ttQual) then
            some (round2Q (([prQual].countP (claimQualTest ttQual) : ℚ) /
              ([prQual].countP (claimQualFound ttQual) : ℚ)))
          else none } :=
  of_decide_eq_true (by with_unfolding_all rfl)

/-- C8 (amended): the quality scan counts exactly the PRs whose merge-commit
hash is non-null, non-empty after lower-casing, and present in the lookup
with a boolean value (toward the denominator), of which those mapped to
`true` count toward the numerator; the ratio is the rounded quotient when
the denominator is positive and null otherwise. -/
theorem computeQuality_counts (prs : List PRNode) (tt : TouchedTests) :
    computeQualityForEngineer prs tt =
      { prs_with_tests := prs.countP (specQualTest tt)
        total_prs_with_merge_commit_found := prs.countP (specQualFound tt)
        test_touch_ratio :=
          if 0 < prs.countP (specQualFound tt) then
            some (round2Q ((prs.countP (specQualTest tt) : ℚ) /
              (prs.countP (specQualFound tt) : ℚ)))
          else none } :=
  computeQualityForEngineer_eq prs tt

/-- C1: every output profile comes from a grouped entry holding exactly that
login's authored PRs and counted reviews; its raw PR points are three per
merged PR plus the sum of `ln(1 + min(additions + deletions, 2000))` over
those PRs, its raw review points are 1.2 per counted review, and the
reported total is the rounding of the full-precision sum of the two raw
values. -/
theorem computeMetrics_points_formula (prs : List PRNode) (ws : ℤ) (e : Engineer)
    (he : e ∈ computeMetrics prs ws) :
    ∃ p ∈ authorFold ws prs, p.1 = e.login ∧
      p.2.prs = specAuthoredPRs e.login prs ∧
      p.2.reviewsGiven = specCountedReviews ws e.login prs ∧
      prPointsRaw p.2 = 3 * (p.2.prs.length : ℝ) +
        ((p.2.prs.map (fun pr =>
          Real.log (1 + ((min (pr.additions + pr.deletions) 2000 : ℕ) : ℝ)))).sum) ∧
      reviewPointsRaw p.2 = 1.2 * (p.2.reviewsGiven : ℝ) ∧
      e.total = round2R (prPointsRaw p.2 + reviewPointsRaw p.2) := by
  obtain ⟨p, hp, rfl⟩ := mem_computeMetrics.mp he
  have hp' : p ∈ authorFold ws prs := by
    rw [← fst_processAll]
    exact hp
  have hchar := entry_authorFold ws prs p hp'
  have hlogin : (mkEngineer (processAll ws prs).2 p.1 p.2).login = p.1 := rfl
  refine ⟨p, hp', rfl, ?_, ?_, ?_, ?_, ?_⟩
  · rw [hlogin]
    exact hchar.1
  · rw [hlogin]
    exact hchar.2
  · rw [prPointsRaw, codeSizeScore_eq_sum]
    ring
  · rw [reviewPointsRaw]
    ring
  · show round2R (totalRaw p.2) = round2R (prPointsRaw p.2 + reviewPointsRaw p.2)
    rfl

/-- Concrete single-PR input used by the C1 and C3 witnesses. -/
def prW : PRNode := ⟨"t", "u", 0, 0, none, 0, 0, some ⟨"alice", ""⟩, []⟩

/-- Witness for C1 at the concrete input `[prW]`, window start 0. -/
theorem computeMetrics_points_formula_witness :
    mkEngineer [] "alice" ⟨"", [prW], 0⟩ ∈ computeMetrics [prW] 0 ∧
      (∃ p ∈ authorFold 0 [prW], p.1 = (mkEngineer [] "alice" ⟨"", [prW], 0⟩).login ∧
        p.2.prs = specAuthoredPRs (mkEngineer [] "alice" ⟨"", [prW], 0⟩).login [prW] ∧
        p.2.reviewsGiven =
          specCountedReviews 0 (mkEngineer [] "alice" ⟨"", [prW], 0⟩).login [prW] ∧
        prPointsRaw p.2 = 3 * (p.2.prs.length : ℝ) +
          ((p.2.prs.map (fun pr =>
            Real.log (1 + ((min (pr.additions + pr.deletions) 2000 : ℕ) : ℝ)))).sum) ∧
        reviewPointsRaw p.2 = 1.2 * (p.2.reviewsGiven : ℝ) ∧
        (mkEngineer [] "alice" ⟨"", [prW], 0⟩).total =
          round2R (prPointsRaw p.2 + reviewPointsRaw p.2)) := by
  have hpa : processAll 0 [prW] = ([("alice", (⟨"", [prW], 0⟩ : AccEntry))], []) := by
    with_unfolding_all rfl
  have hlist : computeMetrics [prW] 0 = [mkEngineer [] "alice" ⟨"", [prW], 0⟩] := by
    unfold computeMetrics preRankedEngineers sortEngineers
    rw [hpa]
    simp [List.insertionSort, List.orderedInsert]
  have hmem : mkEngineer [] "alice" ⟨"", [prW], 0⟩ ∈ computeMetrics [prW] 0 := by
    rw [hlist]
    exact List.mem_singleton.mpr rfl
  exact ⟨hmem, computeMetrics_points_formula [prW] 0 _ hmem⟩

/-- C3: every output profile's total is the raw score sum rounded at two
decimals half away from zero (the raw sum is non-negative, so this agrees
with the code's `Math.round`), the two breakdown components are rounded the
same way, and the total differs from the sum of the independently rounded
components by at most 0.01. -/
theorem computeMetrics_total_rounding (prs : List PRNode) (ws : ℤ) (e : Engineer)
    (he : e ∈ computeMetrics prs ws) :
    (∃ p ∈ authorFold ws prs, p.1 = e.login ∧
        e.total = roundAway2R (prPointsRaw p.2 + reviewPointsRaw p.2) ∧
        e.pr_points = roundAway2R (prPointsRaw p.2) ∧
        e.review_points = roundAway2R (reviewPointsRaw p.2)) ∧
      |e.total - (e.pr_points + e.review_points)| ≤ 1 / 100 := by
  obtain ⟨p, hp, rfl⟩ := mem_computeMetrics.mp he
  have hp' : p ∈ authorFold ws prs := by
    rw [← fst_processAll]
    exact hp
  constructor
  · refine ⟨p, hp', rfl, ?_, ?_, ?_⟩
    · show round2R (totalRaw p.2) = roundAway2R (prPointsRaw p.2 + reviewPointsRaw p.2)
      rw [← round2R_eq_roundAway2R (by rw [← totalRaw]; exact totalRaw_nonneg p.2)]
      rfl
    · show round2R (prPointsRaw p.2) = roundAway2R (prPointsRaw p.2)
      exact round2R_eq_roundAway2R (prPointsRaw_nonneg p.2)
    · show round2R (reviewPointsRaw p.2) = roundAway2R (reviewPointsRaw p.2)
      exact round2R_eq_roundAway2R (reviewPointsRaw_nonneg p.2)
  · show |round2R (totalRaw p.2) -
      (round2R (prPointsRaw p.2) + round2R (reviewPointsRaw p.2))| ≤ 1 / 100
    have h := abs_round2R_add_sub_le (prPointsRaw p.2) (reviewPointsRaw p.2)
    rw [totalRaw]
    exact h

/-- Witness for C3 at the concrete input `[prW]`, window start 0. -/
theorem computeMetrics_total_rounding_witness :
    mkEngineer [] "alice" ⟨"", [prW], 0⟩ ∈ computeMetrics [prW] 0 ∧
      ((∃ p ∈ authorFold 0 [prW], p.1 = (mkEngineer [] "alice" ⟨"", [prW], 0⟩).login ∧
          (mkEngineer [] "alice" ⟨"", [prW], 0⟩).total =
            roundAway2R (prPointsRaw p.2 + reviewPointsRaw p.2) ∧
          (mkEngineer [] "alice" ⟨"", [prW], 0⟩).pr_points =
            roundAway2R (prPointsRaw p.2) ∧
          (mkEngineer [] "alice" ⟨"", [prW], 0⟩).review_points =
            roundAway2R (reviewPointsRaw p.2)) ∧
        |(mkEngineer [] "alice" ⟨"", [prW], 0⟩).total -
          ((mkEngineer [] "alice" ⟨"", [prW], 0⟩).pr_points +
            (mkEngineer [] "alice" ⟨"", [prW], 0⟩).review_points)| ≤ 1 / 100) := by
  have hpa : processAll 0 [prW] = ([("alice", (⟨"", [prW], 0⟩ : AccEntry))], []) := by
    with_unfolding_all rfl
  have hlist : computeMetrics [prW] 0 = [mkEngineer [] "alice" ⟨"", [prW], 0⟩] := by
    unfold computeMetrics preRankedEngineers sortEngineers
    rw [hpa]
    simp [List.insertionSort, List.orderedInsert]
  have hmem : mkEngineer [] "alice" ⟨"", [prW], 0⟩ ∈ computeMetrics [prW] 0 := by
    rw [hlist]
    exact List.mem_singleton.mpr rfl
  exact ⟨hmem, computeMetrics_total_rounding [prW] 0 _ hmem⟩

/-- C5: the output is pairwise ordered by descending total (so every
adjacent pair a, b satisfies `b.total ≤ a.total`), and for every score value
the sub-list of profiles at that total is exactly the corresponding
sub-list of the pre-sort profile array, which lists logins in the order
they were first encountered during grouping — the sort is stable with
first-seen tie order. -/
theorem computeMetrics_sorted_and_stable (prs : List PRNode) (ws : ℤ) :
    (computeMetrics prs ws).Pairwise engLE ∧
      ∀ t : ℝ, filterTotal t (computeMetrics prs ws) =
        filterTotal t (preRankedEngineers prs ws) := by
  constructor
  · exact List.sorted_insertionSort engLE (preRankedEngineers prs ws)
  · intro t
    unfold filterTotal computeMetrics sortEngineers
    refine filter_insertionSort engLE _ ?_ _
    intro x y hx hy
    have hx' : x.total = t := of_decide_eq_true hx
    have hy' : y.total = t := of_decide_eq_true hy
    unfold engLE
    rw [hx', hy']

/-- Keep a PR unless it is authored by a bot (authorless PRs stay; the
engine skips them anyway). -/
def keepHumanPR (pr : PRNode) : Bool :=
  match pr.author with
  | none => true
  | some a => !isBot a.login

/-- Keep a review unless its author is a bot. -/
def humanReview (_pr : PRNode) (rv : ReviewNode) : Bool :=
  match rv.author with
  | none => true
  | some r => !isBot r

/-- C6: no output login matches the bot pattern, and deleting every
bot-authored PR together with every bot-authored review leaves the output
unchanged — bot logins contribute to no authoring or reviewing tally. -/
theorem computeMetrics_bots_excluded (prs : List PRNode) (ws : ℤ) :
    ((computeMetrics prs ws).all (fun e => !isBot e.login) = true) ∧
      computeMetrics ((prs.filter keepHumanPR).map (filterReviews humanReview)) ws =
        computeMetrics prs ws := by
  constructor
  · rw [List.all_eq_true]
    intro e he
    obtain ⟨p, hp, rfl⟩ := mem_computeMetrics.mp he
    have hp' : p ∈ authorFold ws prs := by
      rw [← fst_processAll]
      exact hp
    have hb := isBot_false_of_present ws prs p.1 (memA_of_mem hp')
    have hlogin : (mkEngineer (processAll ws prs).2 p.1 p.2).login = p.1 := rfl
    rw [hlogin, hb]
    rfl
  · have h1 : computeMetrics ((prs.filter keepHumanPR).map (filterReviews humanReview)) ws =
        computeMetrics (prs.filter keepHumanPR) ws := by
      apply computeMetrics_filterReviews
      intro pr a hpa hnb rv hrv s
      unfold humanReview at hrv
      cases hra : rv.author with
      | none => rw [hra] at hrv; cases hrv
      | some r =>
        rw [hra] at hrv
        have hbot : isBot r = true := by
          simpa using hrv
        unfold reviewStepFR
        rw [hra]
        simp [hbot]
    have h2 : processAll ws (prs.filter keepHumanPR) = processAll ws prs := by
      unfold processAll
      apply foldl_filter_eq
      intro s pr hpr
      unfold keepHumanPR at hpr
      cases hpa : pr.author with
      | none => rw [hpa] at hpr; cases hpr
      | some a =>
        rw [hpa] at hpr
        have hbot : isBot a.login = true := by
          simpa using hpr
        exact processPR_eq_of_bot_author ws s pr ⟨a, hpa, hbot⟩
    rw [h1, computeMetrics_congr_processAll _ _ ws h2]

/-- Keep a review unless its author login equals the PR author's login. -/
def nonSelfReview (pr : PRNode) (rv : ReviewNode) : Bool :=
  match pr.author, rv.author with
  | some a, some r => !(r == a.login)
  | _, _ => true

/-- C7: removing all self-reviews leaves the output unchanged — a review by
the PR's own author is never counted — and every entry's counter equals the
spec-side count whose predicate excludes reviewer = PR author. -/
theorem computeMetrics_self_reviews_excluded (prs : List PRNode) (ws : ℤ) :
    computeMetrics (prs.map (filterReviews nonSelfReview)) ws = computeMetrics prs ws ∧
      ((authorFold ws prs).all
        (fun p => decide (p.2.reviewsGiven = specCountedReviews ws p.1 prs)) = true) := by
  constructor
  · apply computeMetrics_filterReviews
    intro pr a hpa hnb rv hrv s
    unfold nonSelfReview at hrv
    rw [hpa] at hrv
    cases hra : rv.author with
    | none => rw [hra] at hrv; cases hrv
    | some r =>
      rw [hra] at hrv
      have hself : r = a.login := by
        simpa using hrv
      unfold reviewStepFR
      rw [hra]
      by_cases hbr : isBot r
      · simp [hbr]
      · simp [hbr, hself]
  · rw [List.all_eq_true]
    intro p hp
    simpa using (entry_authorFold ws prs p hp).2

/-- Whether a PR has a non-null, non-bot author. -/
def goodAuthorPR (pr : PRNode) : Bool :=
  match pr.author with
  | none => false
  | some a => !isBot a.login

/-- Keep a review only when the surrounding PR has a usable author. -/
def reviewOfGoodPR (pr : PRNode) (_rv : ReviewNode) : Bool := goodAuthorPR pr

/-- C10: deleting every review attached to an authorless or bot-authored PR
leaves the output unchanged (those PRs are skipped before their reviews are
examined), and every output login authored a counted PR or gave a counted
review on a well-authored PR — a login whose only reviews sit on such PRs
never appears. -/
theorem computeMetrics_bad_author_prs_skipped (prs : List PRNode) (ws : ℤ) :
    computeMetrics (prs.map (filterReviews reviewOfGoodPR)) ws = computeMetrics prs ws ∧
      ((computeMetrics prs ws).all (fun e =>
        decide (specAuthoredPRs e.login prs ≠ []) ||
          decide (specCountedReviews ws e.login prs ≠ 0)) = true) := by
  constructor
  · apply computeMetrics_filterReviews
    intro pr a hpa hnb rv hrv s
    unfold reviewOfGoodPR goodAuthorPR at hrv
    rw [hpa] at hrv
    dsimp only at hrv
    rw [hnb] at hrv
    cases hrv
  · rw [List.all_eq_true]
    intro e he
    obtain ⟨p, hp, rfl⟩ := mem_computeMetrics.mp he
    have hp' : p ∈ authorFold ws prs := by
      rw [← fst_processAll]
      exact hp
    have hm := memA_of_mem hp'
    rw [memA_authorFold] at hm
    simp only [Bool.or_eq_true, decide_eq_true_eq] at hm
    have hlogin : (mkEngineer (processAll ws prs).2 p.1 p.2).login = p.1 := rfl
    rw [hlogin]
    rcases hm with h | h
    · simp [h]
    · simp [Nat.pos_iff_ne_zero.mp h]
